import Mathlib

/-!
Verification of the bare batch-renaming tool.

The development shallowly embeds the two generations of the rename engine
found in the sources:

* the library builder in src/bare/mod.rs (propose_renames over
  TypedCliArgs, using Regex::replace_all), and
* the legacy standalone binary in src/main.rs (bare::propose_renames using
  Regex::replace, plus the confirmation and execution loop of main and
  cli::ask_user).

Modelling choices, stated once here:

* File names are lists of characters (Str).  All regexes appearing in the
  repository tests and examples are literal-equivalent: capture groups are
  transparent to matching, escape sequences denote literal characters, and
  no replacement string references a capture group.  A Pattern therefore
  carries the literal character sequence its regex matches (field regex)
  and a literal replacement (field replacement).  Regex.is_match,
  Regex.replace (leftmost match only) and Regex.replace_all (all
  non-overlapping matches, scanning left to right) implement the regex
  crate semantics on this literal fragment.  The degenerate empty regex is
  never used by the program; the model treats an empty needle as matching
  nowhere in the two replace functions.
* A path is a record of its parent component and its file-name component,
  each optional exactly as Rust path accessors Path::parent and
  Path::file_name are optional.  The file system at proposal time is a
  read-only predicate on paths.  Conversion to UTF-8 (to_str) is assumed
  to succeed and is modelled as the identity.
* A Rust panic (Option::unwrap on None) is modelled by the embedded
  function returning none.
* The HashMap used for the library Proposal is modelled as an association
  list; only per-key contents are observable (directory iteration order
  is unspecified in the source).
* The file-system rename syscall of the execution loop is an abstract
  state transformer tryRename over an abstract state type and an abstract
  error type; the loop records, per attempted item, the optional error.
* cli::ask_user repeatedly reads stdin lines until the validator accepts;
  stdin is modelled as the list of lines that will be read, and a run that
  exhausts it (the source would block or spin forever) is modelled as
  none.  The case-insensitive marker of the confirmation regex matches
  literals up to Unicode simple case folding; caseFold restricts that
  folding to the code points whose fold lands in the letters of the
  alternation: the ASCII uppercase letters and U+017F (the long s, which
  folds to s).  No other code point simple-case-folds to y, e, s, n, o or
  the newline, so this restriction decides the validator exactly.  Rust
  str::to_lowercase and char::is_whitespace agree with their ASCII
  restrictions on every character a validator-accepted answer can contain
  (U+017F is already lowercase).
-/

namespace Bare

/-- File names and path components as character lists. -/
abbrev Str := List Char

namespace Regex

/-- Regex::is_match for a literal needle: the needle occurs somewhere in
the haystack. -/
def is_match (needle : Str) : Str → Bool
  | [] => needle.isEmpty
  | c :: rest => needle.isPrefixOf (c :: rest) || is_match needle rest

/-- Leftmost occurrence of the needle: returns the text before the match
and the text after it. -/
def findSplit (needle : Str) : Str → Option (Str × Str)
  | [] => if needle.isEmpty then some ([], []) else none
  | c :: rest =>
    if needle.isPrefixOf (c :: rest) then
      some ([], (c :: rest).drop needle.length)
    else
      match findSplit needle rest with
      | some (pre, suf) => some (c :: pre, suf)
      | none => none

/-- Regex::replace for a literal needle: substitute the leftmost match
only, keep the rest of the haystack verbatim.  Used by the legacy builder
in src/main.rs, line 309. -/
def replace (needle repl : Str) : Str → Str
  | [] => []
  | c :: rest =>
    if needle.isPrefixOf (c :: rest) then
      repl ++ (c :: rest).drop needle.length
    else
      c :: replace needle repl rest

/-- Worker for Regex::replace_all, structurally recursive on a fuel
bound so that it reduces inside the kernel; any fuel at least the
haystack length gives the fuel-free behaviour. -/
def replaceAllGo (needle repl : Str) : Nat → Str → Str
  | _, [] => []
  | 0, s => s
  | fuel + 1, c :: rest =>
    if needle.isPrefixOf (c :: rest) && !needle.isEmpty then
      repl ++ replaceAllGo needle repl fuel ((c :: rest).drop needle.length)
    else
      c :: replaceAllGo needle repl fuel rest

/-- Regex::replace_all for a literal needle: substitute every
non-overlapping match, scanning left to right.  Used by the library
builder in src/bare/mod.rs, line 49. -/
def replace_all (needle repl s : Str) : Str :=
  replaceAllGo needle repl s.length s

end Regex

/-- A Pattern is a regex together with its replacement text
(src/bare/mod.rs, lines 14-23; the regex is modelled by the literal
character sequence it matches, see the header). -/
structure Pattern where
  regex : Str
  replacement : Str
deriving DecidableEq, Repr

/-- A Rename is a (src, dst) pair of bare file names
(src/bare/mod.rs, line 28). -/
abbrev Rename := Str × Str

/-- A rename proposal maps a parent dir to multiple src to dst renames
(src/bare/mod.rs, line 32); the HashMap is modelled as an association
list. -/
abbrev Proposal := List (Str × List Rename)

/-- Association list lookup, modelling HashMap::get. -/
def alistGet {κ α : Type} [DecidableEq κ] : List (κ × α) → κ → Option α
  | [], _ => none
  | (k', v') :: rest, k => if k' = k then some v' else alistGet rest k

/-- Association list insertion, modelling HashMap::insert: replace the
value at an existing key, otherwise add the binding. -/
def alistInsert {κ α : Type} [DecidableEq κ] : List (κ × α) → κ → α → List (κ × α)
  | [], k, v => [(k, v)]
  | (k', v') :: rest, k, v =>
    if k' = k then (k, v) :: rest else (k', v') :: alistInsert rest k v

/-- Lookup with default, modelling proposal.get(..).unwrap_or(vec![]). -/
def alistGetD {κ α : Type} [DecidableEq κ] (m : List (κ × α)) (k : κ) (d : α) : α :=
  (alistGet m k).getD d

/-- A file path as the pair of optional accessors the source unwraps:
Path::parent and Path::file_name. -/
structure FsPath where
  parent : Option Str
  fileName : Option Str
deriving DecidableEq, Repr

/-- The pattern loop of the library builder (src/bare/mod.rs, lines
45-52): fold the patterns in list order over the running destination
name; a matching pattern rewrites via Regex::replace_all, a non-matching
one leaves the name unchanged. -/
def applyPatterns : List Pattern → Str → Str
  | [], dst_name => dst_name
  | p :: rest, dst_name =>
    applyPatterns rest
      (if Regex.is_match p.regex dst_name then
        Regex.replace_all p.regex p.replacement dst_name
      else dst_name)

/-- The pattern loop of the legacy builder (src/main.rs, lines 306-311):
identical shape, but a matching pattern rewrites via Regex::replace,
substituting the leftmost match only. -/
def mainApplyPatterns : List Pattern → Str → Str
  | [], dst_name => dst_name
  | p :: rest, dst_name =>
    mainApplyPatterns rest
      (if Regex.is_match p.regex dst_name then
        Regex.replace p.regex p.replacement dst_name
      else dst_name)

/-- Loop body of the library propose_renames (src/bare/mod.rs, lines
36-57).  fs is the read-only existence predicate; the two unwraps on
file_name and parent are modelled by none on failure. -/
def proposeLoop (fs : FsPath → Bool) (patterns : List Pattern) :
    List FsPath → Proposal → List FsPath → Option (Proposal × List FsPath)
  | [], proposal, files_not_found => some (proposal, files_not_found)
  | src_path :: rest, proposal, files_not_found =>
    if fs src_path then
      match src_path.fileName with
      | none => none
      | some src_name =>
        match src_path.parent with
        | none => none
        | some parent =>
          let dst_name := applyPatterns patterns src_name
          let renames := alistGetD proposal parent [] ++ [(src_name, dst_name)]
          proposeLoop fs patterns rest (alistInsert proposal parent renames)
            files_not_found
    else
      proposeLoop fs patterns rest proposal (files_not_found ++ [src_path])

/-- The library builder propose_renames (src/bare/mod.rs, lines 34-59):
from candidate files and patterns to the grouped Proposal plus the list
of files not found. -/
def propose_renames (fs : FsPath → Bool) (files : List FsPath)
    (patterns : List Pattern) : Option (Proposal × List FsPath) :=
  proposeLoop fs patterns files [] []

/-- Result record of the legacy builder (src/main.rs, lines 288-291).
The source stores not_found as path strings; paths are kept. -/
structure RenameProposal where
  renames : List (FsPath × FsPath)
  not_found : List FsPath
deriving DecidableEq, Repr

/-- Loop body of the legacy bare::propose_renames (src/main.rs, lines
297-315): parent and file_name are unwrapped before the existence check,
so they are demanded of every candidate, missing or not. -/
def mainProposeLoop (fs : FsPath → Bool) (patterns : List Pattern) :
    List FsPath → List (FsPath × FsPath) → List FsPath → Option RenameProposal
  | [], renames, not_found => some ⟨renames, not_found⟩
  | src_path :: rest, renames, not_found =>
    match src_path.parent with
    | none => none
    | some parent =>
      match src_path.fileName with
      | none => none
      | some src_name =>
        if fs src_path then
          let dst_name := mainApplyPatterns patterns src_name
          let dst_path : FsPath := ⟨some parent, some dst_name⟩
          mainProposeLoop fs patterns rest (renames ++ [(src_path, dst_path)])
            not_found
        else
          mainProposeLoop fs patterns rest renames (not_found ++ [src_path])

/-- The legacy builder bare::propose_renames (src/main.rs, lines
293-317). -/
def main_propose_renames (fs : FsPath → Bool) (paths : List FsPath)
    (patterns : List Pattern) : Option RenameProposal :=
  mainProposeLoop fs patterns paths [] []

/-- Total rename count of a Proposal, over all directory groups. -/
def countRenames (proposal : Proposal) : Nat :=
  (proposal.map (fun e => e.2.length)).sum

/-- str::trim, restricted to ASCII whitespace. -/
def trim (s : Str) : Str :=
  ((s.dropWhile Char.isWhitespace).reverse.dropWhile Char.isWhitespace).reverse

/-- answer.to_lowercase().trim() from src/main.rs, line 348 (ASCII
restriction of to_lowercase). -/
def normalizeAnswer (a : Str) : Str :=
  trim (a.map Char.toLower)

/-- Unicode simple case folding, restricted to the code points whose
fold lands in the letters of the confirmation alternation: the ASCII
uppercase letters fold to their lowercase forms, and U+017F (latin
small letter long s) folds to s.  Per the Unicode CaseFolding table, no
other code point simple-case-folds to y, e, s, n, o or the newline, so
this restriction is exact for deciding the validator below. -/
def caseFold (c : Char) : Char :=
  if c = 'ſ' then 's' else c.toLower

/-- The confirmation validator of src/main.rs, line 346: the anchored
regex (?i)(y|n|yes|no)?, followed by a newline.  The regex crate
matches the case-insensitive literals up to Unicode simple case
folding: a candidate matches exactly when folding each of its
characters yields one of the five folded alternatives. -/
def confirmValidator (a : Str) : Bool :=
  ["\n".toList, "y\n".toList, "n\n".toList, "yes\n".toList, "no\n".toList]
    |>.contains (a.map caseFold)

/-- Loop body of cli::ask_user (src/main.rs, lines 189-200): keep the
last read line while it fails validation, reading a further stdin line
each round; an exhausted stdin (the source blocks forever) is none. -/
def askUserLoop (validator : Str → Bool) : List Str → Str → Option Str
  | [], answer => if validator answer then some answer else none
  | line :: rest, answer =>
    if validator answer then some answer else askUserLoop validator rest line

/-- cli::ask_user (src/main.rs, lines 189-200), starting from the empty
answer, over the list of stdin lines the run will read. -/
def ask_user (validator : Str → Bool) (stdinLines : List Str) : Option Str :=
  askUserLoop validator stdinLines []

/-- The rename application loop of main (src/main.rs, lines 350-354):
attempt std::fs::rename for every (src, dst) pair in stored order,
record the optional per-item error, and continue regardless.  The
syscall is the abstract state transformer tryRename over state σ and
error type ε. -/
def runRenames {σ ε : Type} (tryRename : σ → FsPath × FsPath → σ × Option ε) :
    σ → List (FsPath × FsPath) → σ × List ((FsPath × FsPath) × Option ε)
  | s, [] => (s, [])
  | s, r :: rest =>
    ((runRenames tryRename (tryRename s r).1 rest).1,
     (r, (tryRename s r).2) :: (runRenames tryRename (tryRename s r).1 rest).2)

/-- Terminal outcome of a run of main past the proposal rendering. -/
inductive Outcome
  | dryRunExit
  | blocked
  | applied
  | aborted
  | unrecognized
deriving DecidableEq, Repr

/-- The confirmation match of main (src/main.rs, lines 348-359): the
arms "y" or "yes", then "n" or "no" or the empty DEFAULT, then the
fallthrough warning arm. -/
def confirmDispatch {σ ε : Type} (tryRename : σ → FsPath × FsPath → σ × Option ε)
    (s : σ) (renames : List (FsPath × FsPath)) (answer : Str) :
    σ × List ((FsPath × FsPath) × Option ε) × Outcome :=
  if normalizeAnswer answer = "y".toList ∨ normalizeAnswer answer = "yes".toList then
    ((runRenames tryRename s renames).1, (runRenames tryRename s renames).2,
      Outcome.applied)
  else if normalizeAnswer answer = "n".toList ∨ normalizeAnswer answer = "no".toList
      ∨ normalizeAnswer answer = [] then
    (s, [], Outcome.aborted)
  else
    (s, [], Outcome.unrecognized)

/-- The tail of main after the proposal is rendered (src/main.rs, lines
341-359): a dry run returns before the prompt; otherwise the answer
obtained from cli::ask_user is dispatched. -/
def mainRun {σ ε : Type} (dry_run : Bool) (stdinLines : List Str)
    (renames : List (FsPath × FsPath))
    (tryRename : σ → FsPath × FsPath → σ × Option ε) (s : σ) :
    σ × List ((FsPath × FsPath) × Option ε) × Outcome :=
  if dry_run then (s, [], Outcome.dryRunExit)
  else
    match ask_user confirmValidator stdinLines with
    | none => (s, [], Outcome.blocked)
    | some answer => confirmDispatch tryRename s renames answer

/-- A concrete rename oracle for closed instances: every attempt
succeeds and bumps a counter of issued operations. -/
def countingTry : Nat → FsPath × FsPath → Nat × Option Unit :=
  fun s _ => (s + 1, none)

/-- A concrete file system on which every path exists. -/
def fsAll : FsPath → Bool := fun _ => true

/-- A concrete file system on which no path exists. -/
def fsNone : FsPath → Bool := fun _ => false

/-- A concrete file system on which exactly the path named gone.txt is
missing. -/
def fsGone : FsPath → Bool :=
  fun p => !(p.fileName == some "gone.txt".toList)

/-- The in-directory rename sequence the claims describe, written from
the claim wording (the spec side of the refinement): one rename per
present candidate of the directory, in the order the candidates were
supplied, with the destination computed by the pattern fold. -/
def specDirRenames (fs : FsPath → Bool) (patterns : List Pattern) (d : Str) :
    List FsPath → List Rename
  | [] => []
  | p :: rest =>
    if fs p ∧ p.parent = some d then
      (p.fileName.getD [], applyPatterns patterns (p.fileName.getD [])) ::
        specDirRenames fs patterns d rest
    else
      specDirRenames fs patterns d rest

section RegexLemmas

namespace Regex

lemma prefix_drop_eq {needle s : Str} (h : needle.isPrefixOf s = true) :
    s = needle ++ s.drop needle.length := by
  obtain ⟨t, rfl⟩ := List.isPrefixOf_iff_prefix.mp h
  simp

lemma replaceAllGo_irrel (needle repl : Str) :
    ∀ (f1 : Nat) (s : Str) (f2 : Nat), s.length ≤ f1 → s.length ≤ f2 →
      replaceAllGo needle repl f1 s = replaceAllGo needle repl f2 s := by
  intro f1
  induction f1 with
  | zero =>
    intro s f2 h1 _
    have hs : s = [] := List.length_eq_zero.mp (Nat.le_zero.mp h1)
    subst hs
    cases f2 <;> rfl
  | succ f ih =>
    intro s f2 h1 h2
    cases s with
    | nil => cases f2 <;> rfl
    | cons c rest =>
      cases f2 with
      | zero => simp at h2
      | succ f2' =>
        simp only [replaceAllGo]
        by_cases hp : (needle.isPrefixOf (c :: rest) && !needle.isEmpty) = true
        · rw [if_pos hp, if_pos hp]
          have hne : needle ≠ [] := by
            have h' := hp
            simp [List.isEmpty_iff] at h'
            exact h'.2
          have hlen : 0 < needle.length := List.length_pos.mpr hne
          congr 1
          apply ih
          · simp only [List.length_drop, List.length_cons]
            simp only [List.length_cons] at h1
            omega
          · simp only [List.length_drop, List.length_cons]
            simp only [List.length_cons] at h2
            omega
        · rw [if_neg hp, if_neg hp]
          congr 1
          apply ih
          · simp only [List.length_cons] at h1
            omega
          · simp only [List.length_cons] at h2
            omega

lemma replace_all_cons (needle repl : Str) (c : Char) (rest : Str) :
    replace_all needle repl (c :: rest)
      = if needle.isPrefixOf (c :: rest) && !needle.isEmpty then
          repl ++ replace_all needle repl ((c :: rest).drop needle.length)
        else c :: replace_all needle repl rest := by
  show replaceAllGo needle repl (c :: rest).length (c :: rest) = _
  simp only [List.length_cons, replaceAllGo]
  by_cases hp : (needle.isPrefixOf (c :: rest) && !needle.isEmpty) = true
  · rw [if_pos hp, if_pos hp]
    have hne : needle ≠ [] := by
      have h' := hp
      simp [List.isEmpty_iff] at h'
      exact h'.2
    have hlen : 0 < needle.length := List.length_pos.mpr hne
    congr 1
    apply replaceAllGo_irrel
    · simp only [List.length_drop, List.length_cons]
      omega
    · exact Nat.le_refl _
  · rw [if_neg hp, if_neg hp]
    rfl

lemma findSplit_nil_of_ne {needle : Str} (hne : needle ≠ []) :
    findSplit needle [] = none := by
  simp [findSplit, List.isEmpty_iff, hne]

lemma replace_of_findSplit (needle repl : Str) (hne : needle ≠ []) :
    ∀ (s pre suf : Str), findSplit needle s = some (pre, suf) →
      replace needle repl s = pre ++ repl ++ suf := by
  intro s
  induction s with
  | nil =>
    intro pre suf h
    rw [findSplit_nil_of_ne hne] at h
    exact absurd h (by simp)
  | cons c rest ih =>
    intro pre suf h
    by_cases hp : needle.isPrefixOf (c :: rest) = true
    · simp only [findSplit, if_pos hp, Option.some_inj, Prod.mk.injEq] at h
      obtain ⟨hpre, hsuf⟩ := h
      subst hpre
      subst hsuf
      simp [replace, hp]
    · simp only [findSplit, if_neg hp] at h
      cases hfs : findSplit needle rest with
      | none => rw [hfs] at h; exact absurd h (by simp)
      | some pr =>
        obtain ⟨pre', suf'⟩ := pr
        rw [hfs] at h
        simp only [Option.some_inj, Prod.mk.injEq] at h
        obtain ⟨hpre, hsuf⟩ := h
        subst hpre
        subst hsuf
        simp only [replace, if_neg hp, ih pre' suf' hfs, List.cons_append]

lemma replace_all_of_findSplit (needle repl : Str) (hne : needle ≠ []) :
    ∀ (s pre suf : Str), findSplit needle s = some (pre, suf) →
      replace_all needle repl s = pre ++ repl ++ replace_all needle repl suf := by
  intro s
  induction s with
  | nil =>
    intro pre suf h
    rw [findSplit_nil_of_ne hne] at h
    exact absurd h (by simp)
  | cons c rest ih =>
    intro pre suf h
    have hcond : ∀ b : Bool, (needle.isPrefixOf (c :: rest) = b) →
        (needle.isPrefixOf (c :: rest) && !needle.isEmpty) = b := by
      intro b hb
      rw [hb]
      cases b <;> simp [List.isEmpty_iff, hne]
    by_cases hp : needle.isPrefixOf (c :: rest) = true
    · simp only [findSplit, if_pos hp, Option.some_inj, Prod.mk.injEq] at h
      obtain ⟨hpre, hsuf⟩ := h
      subst hpre
      subst hsuf
      rw [replace_all_cons, if_pos (hcond true hp)]
      simp
    · simp only [findSplit, if_neg hp] at h
      cases hfs : findSplit needle rest with
      | none => rw [hfs] at h; exact absurd h (by simp)
      | some pr =>
        obtain ⟨pre', suf'⟩ := pr
        rw [hfs] at h
        simp only [Option.some_inj, Prod.mk.injEq] at h
        obtain ⟨hpre, hsuf⟩ := h
        subst hpre
        subst hsuf
        rw [replace_all_cons, if_neg]
        · simp only [ih pre' suf' hfs, List.cons_append]
        · have hp' : needle.isPrefixOf (c :: rest) = false := by
            revert hp
            cases needle.isPrefixOf (c :: rest) <;> simp
          rw [hcond false hp']
          simp

lemma findSplit_none_id (needle repl : Str) :
    ∀ s : Str, findSplit needle s = none →
      replace needle repl s = s ∧ replace_all needle repl s = s
        ∧ is_match needle s = false := by
  intro s
  induction s with
  | nil =>
    intro h
    have hne : needle.isEmpty = false := by
      by_contra hc
      simp only [Bool.not_eq_false] at hc
      simp [findSplit, hc] at h
    exact ⟨rfl, rfl, by simp [is_match, hne]⟩
  | cons c rest ih =>
    intro h
    have hp : needle.isPrefixOf (c :: rest) = false := by
      by_contra hc
      simp only [Bool.not_eq_false] at hc
      simp [findSplit, hc] at h
    have hrest : findSplit needle rest = none := by
      cases hfs : findSplit needle rest with
      | none => rfl
      | some pr =>
        obtain ⟨pre', suf'⟩ := pr
        simp [findSplit, hp, hfs] at h
    obtain ⟨h1, h2, h3⟩ := ih hrest
    refine ⟨?_, ?_, ?_⟩
    · simp [replace, hp, h1]
    · rw [replace_all_cons, if_neg (by simp [hp]), h2]
    · simp [is_match, hp, h3]

lemma is_match_of_findSplit_some (needle : Str) :
    ∀ (s : Str) (x : Str × Str), findSplit needle s = some x →
      is_match needle s = true := by
  intro s
  induction s with
  | nil =>
    intro x h
    by_cases he : needle.isEmpty = true
    · simp [is_match, he]
    · simp only [Bool.not_eq_true] at he
      simp [findSplit, he] at h
  | cons c rest ih =>
    intro x h
    by_cases hp : needle.isPrefixOf (c :: rest) = true
    · simp [is_match, hp]
    · simp only [findSplit, if_neg hp] at h
      cases hfs : findSplit needle rest with
      | none => rw [hfs] at h; exact absurd h (by simp)
      | some pr =>
        simp only [is_match, Bool.or_eq_true]
        exact Or.inr (ih pr hfs)

end Regex

/-- applyPatterns on a single pattern is the guarded replace_all step. -/
lemma applyPatterns_singleton (p : Pattern) (s : Str) :
    applyPatterns [p] s
      = if Regex.is_match p.regex s then
          Regex.replace_all p.regex p.replacement s
        else s := rfl

/-- mainApplyPatterns on a single pattern is the guarded replace step. -/
lemma mainApplyPatterns_singleton (p : Pattern) (s : Str) :
    mainApplyPatterns [p] s
      = if Regex.is_match p.regex s then
          Regex.replace p.regex p.replacement s
        else s := rfl

/-- The pattern loop is the left fold of the per-pattern step over the
pattern list, with the running destination name as accumulator. -/
lemma applyPatterns_eq_foldl :
    ∀ (patterns : List Pattern) (name : Str),
      applyPatterns patterns name
        = patterns.foldl
            (fun acc p =>
              if Regex.is_match p.regex acc then
                Regex.replace_all p.regex p.replacement acc
              else acc)
            name := by
  intro patterns
  induction patterns with
  | nil => intro name; rfl
  | cons p rest ih => intro name; simp only [applyPatterns, List.foldl_cons, ih]

end RegexLemmas

section BuilderLemmas

lemma alistGet_insert_self {κ α : Type} [DecidableEq κ]
    (m : List (κ × α)) (k : κ) (v : α) :
    alistGet (alistInsert m k v) k = some v := by
  induction m with
  | nil => simp [alistInsert, alistGet]
  | cons e rest ih =>
    obtain ⟨k', v'⟩ := e
    by_cases hk : k' = k
    · subst hk
      simp [alistInsert, alistGet]
    · simp [alistInsert, alistGet, hk, ih]

lemma alistGet_insert_ne {κ α : Type} [DecidableEq κ]
    (m : List (κ × α)) (k d : κ) (v : α) (hkd : k ≠ d) :
    alistGet (alistInsert m k v) d = alistGet m d := by
  induction m with
  | nil => simp [alistInsert, alistGet, hkd]
  | cons e rest ih =>
    obtain ⟨k', v'⟩ := e
    by_cases hk : k' = k
    · subst hk
      simp [alistInsert, alistGet, hkd]
    · simp [alistInsert, alistGet, hk, ih]

lemma countRenames_insert (m : Proposal) (k : Str) (r : Rename) :
    countRenames (alistInsert m k (alistGetD m k [] ++ [r]))
      = countRenames m + 1 := by
  induction m with
  | nil => simp [alistInsert, alistGetD, alistGet, countRenames]
  | cons e rest ih =>
    obtain ⟨k', v'⟩ := e
    by_cases hk : k' = k
    · subst hk
      simp [alistInsert, alistGetD, alistGet, countRenames]
      omega
    · have hgd : alistGetD ((k', v') :: rest) k ([] : List Rename)
          = alistGetD rest k [] := by
        simp [alistGetD, alistGet, hk]
      simp only [alistInsert, if_neg hk, hgd, countRenames, List.map_cons,
        List.sum_cons]
      have ih' := ih
      simp only [countRenames] at ih'
      omega

lemma proposeLoop_spec (fs : FsPath → Bool) (patterns : List Pattern) :
    ∀ (files : List FsPath) (prop0 : Proposal) (nf0 : List FsPath)
      (proposal : Proposal) (nf : List FsPath),
      proposeLoop fs patterns files prop0 nf0 = some (proposal, nf) →
        nf = nf0 ++ files.filter (fun p => !(fs p))
          ∧ countRenames proposal
              = countRenames prop0 + (files.filter (fun p => fs p)).length := by
  intro files
  induction files with
  | nil =>
    intro prop0 nf0 proposal nf h
    simp only [proposeLoop, Option.some_inj, Prod.mk.injEq] at h
    obtain ⟨h1, h2⟩ := h
    subst h1
    subst h2
    simp
  | cons p rest ih =>
    intro prop0 nf0 proposal nf h
    by_cases hfs : fs p = true
    · simp only [proposeLoop, if_pos hfs] at h
      cases hn : p.fileName with
      | none => rw [hn] at h; exact absurd h (by simp)
      | some src_name =>
        rw [hn] at h
        cases hpar : p.parent with
        | none => rw [hpar] at h; exact absurd h (by simp)
        | some parent =>
          rw [hpar] at h
          simp only at h
          obtain ⟨ih1, ih2⟩ := ih _ _ _ _ h
          constructor
          · rw [ih1]
            simp [List.filter_cons, hfs]
          · rw [ih2, countRenames_insert]
            simp [List.filter_cons, hfs]
            omega
    · have hfs' : fs p = false := by revert hfs; cases fs p <;> simp
      simp only [proposeLoop, hfs', Bool.false_eq_true, if_false] at h
      obtain ⟨ih1, ih2⟩ := ih _ _ _ _ h
      constructor
      · rw [ih1]
        simp [List.filter_cons, hfs']
      · rw [ih2]
        simp [List.filter_cons, hfs']

lemma proposeLoop_all_missing (fs : FsPath → Bool) (patterns : List Pattern) :
    ∀ (files : List FsPath) (prop0 : Proposal) (nf0 : List FsPath),
      (∀ p ∈ files, fs p = false) →
        proposeLoop fs patterns files prop0 nf0 = some (prop0, nf0 ++ files) := by
  intro files
  induction files with
  | nil => intro prop0 nf0 _; simp [proposeLoop]
  | cons p rest ih =>
    intro prop0 nf0 hall
    have hp : fs p = false := hall p (by simp)
    simp only [proposeLoop, hp, Bool.false_eq_true, if_false]
    rw [ih _ _ (fun q hq => hall q (by simp [hq]))]
    simp

lemma proposeLoop_dir (fs : FsPath → Bool) (patterns : List Pattern) (d : Str) :
    ∀ (files : List FsPath) (prop0 : Proposal) (nf0 : List FsPath)
      (proposal : Proposal) (nf : List FsPath),
      proposeLoop fs patterns files prop0 nf0 = some (proposal, nf) →
        alistGetD proposal d []
          = alistGetD prop0 d [] ++ specDirRenames fs patterns d files := by
  intro files
  induction files with
  | nil =>
    intro prop0 nf0 proposal nf h
    simp only [proposeLoop, Option.some_inj, Prod.mk.injEq] at h
    obtain ⟨h1, _⟩ := h
    subst h1
    simp [specDirRenames]
  | cons p rest ih =>
    intro prop0 nf0 proposal nf h
    by_cases hfs : fs p = true
    · simp only [proposeLoop, if_pos hfs] at h
      cases hn : p.fileName with
      | none => rw [hn] at h; exact absurd h (by simp)
      | some src_name =>
        rw [hn] at h
        cases hpar : p.parent with
        | none => rw [hpar] at h; exact absurd h (by simp)
        | some parent =>
          rw [hpar] at h
          simp only at h
          rw [ih _ _ _ _ h]
          by_cases hd : parent = d
          · subst hd
            rw [specDirRenames, if_pos (by simp [hfs, hpar])]
            unfold alistGetD
            rw [alistGet_insert_self]
            simp [hn, List.append_assoc]
          · rw [specDirRenames, if_neg (by simp [hpar, hd])]
            unfold alistGetD
            rw [alistGet_insert_ne _ _ _ _ hd]
    · have hfs' : fs p = false := by revert hfs; cases fs p <;> simp
      simp only [proposeLoop, hfs', Bool.false_eq_true, if_false] at h
      rw [ih _ _ _ _ h, specDirRenames, if_neg (by simp [hfs'])]

lemma proposeLoop_isSome (fs : FsPath → Bool) (patterns : List Pattern) :
    ∀ (files : List FsPath) (prop0 : Proposal) (nf0 : List FsPath),
      (∀ p ∈ files, fs p = true → p.parent.isSome ∧ p.fileName.isSome) →
        (proposeLoop fs patterns files prop0 nf0).isSome := by
  intro files
  induction files with
  | nil => intro prop0 nf0 _; simp [proposeLoop]
  | cons p rest ih =>
    intro prop0 nf0 hall
    by_cases hfs : fs p = true
    · obtain ⟨hpar, hn⟩ := hall p (by simp) hfs
      simp only [proposeLoop, if_pos hfs]
      cases hn' : p.fileName with
      | none => rw [hn'] at hn; simp at hn
      | some src_name =>
        cases hpar' : p.parent with
        | none => rw [hpar'] at hpar; simp at hpar
        | some parent =>
          simp only
          exact ih _ _ (fun q hq => hall q (by simp [hq]))
    · have hfs' : fs p = false := by revert hfs; cases fs p <;> simp
      simp only [proposeLoop, hfs', Bool.false_eq_true, if_false]
      exact ih _ _ (fun q hq => hall q (by simp [hq]))

lemma mainProposeLoop_isSome (fs : FsPath → Bool) (patterns : List Pattern) :
    ∀ (paths : List FsPath) (renames : List (FsPath × FsPath))
      (not_found : List FsPath),
      (∀ p ∈ paths, p.parent.isSome ∧ p.fileName.isSome) →
        (mainProposeLoop fs patterns paths renames not_found).isSome := by
  intro paths
  induction paths with
  | nil => intro renames not_found _; simp [mainProposeLoop]
  | cons p rest ih =>
    intro renames not_found hall
    obtain ⟨hpar, hn⟩ := hall p (by simp)
    simp only [mainProposeLoop]
    cases hpar' : p.parent with
    | none => rw [hpar'] at hpar; simp at hpar
    | some parent =>
      cases hn' : p.fileName with
      | none => rw [hn'] at hn; simp at hn
      | some src_name =>
        by_cases hfs : fs p = true
        · simp only [if_pos hfs]
          exact ih _ _ (fun q hq => hall q (by simp [hq]))
        · have hfs' : fs p = false := by revert hfs; cases fs p <;> simp
          simp only [hfs', Bool.false_eq_true, if_false]
          exact ih _ _ (fun q hq => hall q (by simp [hq]))

end BuilderLemmas

section ExecutionLemmas

lemma runRenames_map_fst {σ ε : Type}
    (tryRename : σ → FsPath × FsPath → σ × Option ε) :
    ∀ (renames : List (FsPath × FsPath)) (s : σ),
      ((runRenames tryRename s renames).2).map Prod.fst = renames := by
  intro renames
  induction renames with
  | nil => intro s; rfl
  | cons r rest ih => intro s; simp [runRenames, ih]

lemma askUserLoop_valid (validator : Str → Bool) :
    ∀ (lines : List Str) (answer a : Str),
      askUserLoop validator lines answer = some a → validator a = true := by
  intro lines
  induction lines with
  | nil =>
    intro answer a h
    by_cases hv : validator answer = true
    · simp only [askUserLoop, if_pos hv, Option.some_inj] at h
      subst h
      exact hv
    · simp [askUserLoop, hv] at h
  | cons line rest ih =>
    intro answer a h
    by_cases hv : validator answer = true
    · simp only [askUserLoop, if_pos hv, Option.some_inj] at h
      subst h
      exact hv
    · simp only [askUserLoop, hv, Bool.false_eq_true, if_false] at h
      exact ih _ _ h

lemma confirmValidator_cases (a : Str) (h : confirmValidator a = true) :
    a.map caseFold = "\n".toList ∨ a.map caseFold = "y\n".toList
      ∨ a.map caseFold = "n\n".toList ∨ a.map caseFold = "yes\n".toList
      ∨ a.map caseFold = "no\n".toList := by
  simp [confirmValidator] at h
  tauto

lemma toLower_of_caseFold {c d : Char} (h : caseFold c = d) (hd : d ≠ 's') :
    Char.toLower c = d := by
  unfold caseFold at h
  by_cases hc : c = 'ſ'
  · rw [if_pos hc] at h
    exact absurd h.symm hd
  · rwa [if_neg hc] at h

lemma caseFold_s {c : Char} (h : caseFold c = 's') :
    Char.toLower c = 's' ∨ c = 'ſ' := by
  unfold caseFold at h
  by_cases hc : c = 'ſ'
  · exact Or.inr hc
  · rw [if_neg hc] at h
    exact Or.inl h

lemma map_toLower_of_fold :
    ∀ (a target : Str), a.map caseFold = target → 's' ∉ target →
      a.map Char.toLower = target := by
  intro a
  induction a with
  | nil =>
    intro target h _
    simpa using h
  | cons c t ih =>
    intro target h hs
    cases target with
    | nil => simp at h
    | cons d ts =>
      simp only [List.map_cons, List.cons.injEq] at h ⊢
      obtain ⟨h0, h1⟩ := h
      have hd : d ≠ 's' := fun hds => hs (by simp [hds])
      exact ⟨toLower_of_caseFold h0 hd,
        ih ts h1 (fun hm => hs (List.mem_cons_of_mem _ hm))⟩

lemma map_fold_yes (a : Str) (h : a.map caseFold = "yes\n".toList) :
    a.map Char.toLower = "yes\n".toList
      ∨ a.map Char.toLower = "yeſ\n".toList := by
  have htgt : ("yes\n".toList : Str) = ['y', 'e', 's', '\n'] := rfl
  have htgt2 : ("yeſ\n".toList : Str) = ['y', 'e', 'ſ', '\n'] := rfl
  rw [htgt] at h
  rw [htgt, htgt2]
  rcases a with _ | ⟨c0, a⟩
  · exact absurd h (by simp)
  rcases a with _ | ⟨c1, a⟩
  · simp at h
  rcases a with _ | ⟨c2, a⟩
  · simp at h
  rcases a with _ | ⟨c3, t⟩
  · simp at h
  simp only [List.map_cons, List.cons.injEq] at h
  obtain ⟨h0, h1, h2, h3, ht⟩ := h
  have htn : t = [] := by simpa using ht
  subst htn
  have l0 := toLower_of_caseFold h0 (by decide)
  have l1 := toLower_of_caseFold h1 (by decide)
  have l3 := toLower_of_caseFold h3 (by decide)
  rcases caseFold_s h2 with l2 | l2
  · exact Or.inl (by simp [l0, l1, l2, l3])
  · subst l2
    exact Or.inr (by simp [l0, l1, l3])

lemma confirmValidator_normalize (a : Str) (h : confirmValidator a = true) :
    normalizeAnswer a = [] ∨ normalizeAnswer a = "y".toList
      ∨ normalizeAnswer a = "n".toList ∨ normalizeAnswer a = "yes".toList
      ∨ normalizeAnswer a = "no".toList
      ∨ normalizeAnswer a = "yeſ".toList := by
  have hn : normalizeAnswer a = trim (a.map Char.toLower) := rfl
  rcases confirmValidator_cases a h with h' | h' | h' | h' | h'
  · have hl := map_toLower_of_fold a _ h' (by decide)
    exact Or.inl (by rw [hn, hl]; decide)
  · have hl := map_toLower_of_fold a _ h' (by decide)
    exact Or.inr (Or.inl (by rw [hn, hl]; decide))
  · have hl := map_toLower_of_fold a _ h' (by decide)
    exact Or.inr (Or.inr (Or.inl (by rw [hn, hl]; decide)))
  · rcases map_fold_yes a h' with hl | hl
    · exact Or.inr (Or.inr (Or.inr (Or.inl (by rw [hn, hl]; decide))))
    · exact Or.inr (Or.inr (Or.inr (Or.inr (Or.inr
        (by rw [hn, hl]; decide)))))
  · have hl := map_toLower_of_fold a _ h' (by decide)
    exact Or.inr (Or.inr (Or.inr (Or.inr (Or.inl
      (by rw [hn, hl]; decide)))))

lemma confirmDispatch_outcome {σ ε : Type}
    (tryRename : σ → FsPath × FsPath → σ × Option ε) (s : σ)
    (renames : List (FsPath × FsPath)) (answer : Str) :
    (confirmDispatch tryRename s renames answer).2.2
      = if normalizeAnswer answer = "y".toList
            ∨ normalizeAnswer answer = "yes".toList then Outcome.applied
        else if normalizeAnswer answer = "n".toList
            ∨ normalizeAnswer answer = "no".toList
            ∨ normalizeAnswer answer = [] then Outcome.aborted
        else Outcome.unrecognized := by
  unfold confirmDispatch
  by_cases h1 : normalizeAnswer answer = "y".toList
      ∨ normalizeAnswer answer = "yes".toList
  · rw [if_pos h1, if_pos h1]
  · rw [if_neg h1, if_neg h1]
    by_cases h2 : normalizeAnswer answer = "n".toList
        ∨ normalizeAnswer answer = "no".toList ∨ normalizeAnswer answer = []
    · rw [if_pos h2, if_pos h2]
    · rw [if_neg h2, if_neg h2]

end ExecutionLemmas

section Claims

/-- C1, counterexample.  The claim states that the proposal builder
replaces only the first match of each pattern.  The library builder of
src/bare/mod.rs uses Regex::replace_all (line 49): on the candidate
shooshoo.bar with the single pattern (shoo, boo) it produces booboo.bar,
replacing both occurrences, whereas first-match-only replacement (what
the claim predicts, and what Regex::replace computes) would produce
booshoo.bar.  The unit test propose_renames_basic of src/bare/mod.rs
expects booboo.bar, so the all-occurrences behaviour is the intended
one. -/
theorem C1_counterexample :
    propose_renames fsAll
        [⟨some "/d".toList, some "shooshoo.bar".toList⟩]
        [⟨"shoo".toList, "boo".toList⟩]
      = some ([("/d".toList,
          [("shooshoo.bar".toList, "booboo.bar".toList)])], [])
    ∧ Regex.replace "shoo".toList "boo".toList "shooshoo.bar".toList
        = "booshoo.bar".toList
    ∧ "booboo.bar".toList ≠ "booshoo.bar".toList :=
  ⟨by rfl, by rfl, by decide⟩

/-- C1, amended.  The library builder (src/bare/mod.rs) applies each
pattern in list order to the running destination name; a matching
pattern replaces EVERY non-overlapping match, scanning left to right
(at the leftmost occurrence the replacement is substituted and
substitution continues in the text after the match), not only the
first; only the legacy builder of src/main.rs replaces the first match
alone; a non-matching pattern leaves the name unchanged. -/
theorem C1_amended :
    (∀ (needle repl s pre suf : Str), needle ≠ [] →
      Regex.findSplit needle s = some (pre, suf) →
        applyPatterns [⟨needle, repl⟩] s
            = pre ++ repl ++ Regex.replace_all needle repl suf
          ∧ mainApplyPatterns [⟨needle, repl⟩] s = pre ++ repl ++ suf)
    ∧ (∀ (needle repl s : Str), Regex.findSplit needle s = none →
        applyPatterns [⟨needle, repl⟩] s = s
          ∧ mainApplyPatterns [⟨needle, repl⟩] s = s)
    ∧ (∀ (patterns : List Pattern) (name : Str),
        applyPatterns patterns name
          = patterns.foldl
              (fun acc p =>
                if Regex.is_match p.regex acc then
                  Regex.replace_all p.regex p.replacement acc
                else acc)
              name) := by
  refine ⟨?_, ?_, applyPatterns_eq_foldl⟩
  · intro needle repl s pre suf hne h
    have hm : Regex.is_match needle s = true :=
      Regex.is_match_of_findSplit_some needle s (pre, suf) h
    constructor
    · rw [applyPatterns_singleton]
      simp only [hm, if_true]
      exact Regex.replace_all_of_findSplit needle repl hne s pre suf h
    · rw [mainApplyPatterns_singleton]
      simp only [hm, if_true]
      exact Regex.replace_of_findSplit needle repl hne s pre suf h
  · intro needle repl s h
    obtain ⟨_, _, h3⟩ := Regex.findSplit_none_id needle repl s h
    constructor
    · rw [applyPatterns_singleton]
      simp [h3]
    · rw [mainApplyPatterns_singleton]
      simp [h3]

/-- Witness for C1_amended at the pattern (shoo, boo) and the name
shooshoo.bar, whose leftmost match splits as pre = empty,
suf = shoo.bar. -/
theorem C1_amended_witness :
    ("shoo".toList ≠ ([] : Str))
    ∧ Regex.findSplit "shoo".toList "shooshoo.bar".toList
        = some ([], "shoo.bar".toList)
    ∧ (applyPatterns [⟨"shoo".toList, "boo".toList⟩] "shooshoo.bar".toList
          = [] ++ "boo".toList
              ++ Regex.replace_all "shoo".toList "boo".toList "shoo.bar".toList
        ∧ mainApplyPatterns [⟨"shoo".toList, "boo".toList⟩]
            "shooshoo.bar".toList
          = [] ++ "boo".toList ++ "shoo.bar".toList) :=
  ⟨by decide, by rfl,
    C1_amended.1 "shoo".toList "boo".toList "shooshoo.bar".toList []
      "shoo.bar".toList (by decide) (by rfl)⟩

/-- C2: the spec example, mirroring the unit test propose_renames_basic
of src/bare/mod.rs: the four patterns applied in order map shooshoo.bar
to booboo.bar, foo-bar.qux to foo.coconut.qux and the underscore
grault name to .grault.qux, grouped under the common parent
directory. -/
theorem C2_example :
    propose_renames fsAll
      [⟨some "/tmp/bare_test".toList, some "shooshoo.bar".toList⟩,
       ⟨some "/tmp/bare_test".toList, some "foo-bar.qux".toList⟩,
       ⟨some "/tmp/bare_test".toList, some "_(grault).qux".toList⟩]
      [⟨"shoo".toList, "boo".toList⟩, ⟨"-bar".toList, "_coconut".toList⟩,
       ⟨"(grault)".toList, "grault".toList⟩, ⟨"_".toList, ".".toList⟩]
    = some ([("/tmp/bare_test".toList,
        [("shooshoo.bar".toList, "booboo.bar".toList),
         ("foo-bar.qux".toList, "foo.coconut.qux".toList),
         ("_(grault).qux".toList, ".grault.qux".toList)])], []) := by
  rfl

/-- C3: in the library builder every run that returns (no panic) lists
as not found exactly the candidates whose existence check failed, in
supply order, and the proposal holds exactly one Rename per existing
candidate, so missing candidates contribute none; moreover a candidate
list of only missing files always returns normally (existence is data,
never an error), whatever the shape of the paths. -/
theorem C3_missing_reported :
    (∀ (fs : FsPath → Bool) (files : List FsPath) (patterns : List Pattern)
        (proposal : Proposal) (nf : List FsPath),
      propose_renames fs files patterns = some (proposal, nf) →
        nf = files.filter (fun p => !(fs p))
          ∧ countRenames proposal = (files.filter (fun p => fs p)).length)
    ∧ (∀ (fs : FsPath → Bool) (files : List FsPath) (patterns : List Pattern),
        (∀ p ∈ files, fs p = false) →
          propose_renames fs files patterns = some ([], files)) := by
  constructor
  · intro fs files patterns proposal nf h
    obtain ⟨h1, h2⟩ := proposeLoop_spec fs patterns files [] [] proposal nf h
    refine ⟨by simpa using h1, ?_⟩
    have hz : countRenames ([] : Proposal) = 0 := rfl
    rw [h2, hz, Nat.zero_add]
  · intro fs files patterns hall
    have h := proposeLoop_all_missing fs patterns files [] [] hall
    simpa [propose_renames] using h

/-- Witness for C3 at a mixed candidate list over the file system
fsGone, on which exactly the path named gone.txt is missing. -/
theorem C3_witness :
    (propose_renames fsGone
        [⟨some "/d".toList, some "a.txt".toList⟩,
         ⟨some "/d".toList, some "gone.txt".toList⟩,
         ⟨some "/d".toList, some "b.txt".toList⟩] []
      = some ([("/d".toList,
          [("a.txt".toList, "a.txt".toList),
           ("b.txt".toList, "b.txt".toList)])],
          [⟨some "/d".toList, some "gone.txt".toList⟩]))
    ∧ [⟨some "/d".toList, some "gone.txt".toList⟩]
        = ([⟨some "/d".toList, some "a.txt".toList⟩,
            ⟨some "/d".toList, some "gone.txt".toList⟩,
            ⟨some "/d".toList, some "b.txt".toList⟩].filter
            (fun p => !(fsGone p)) : List FsPath)
    ∧ countRenames [("/d".toList,
          [("a.txt".toList, "a.txt".toList),
           ("b.txt".toList, "b.txt".toList)])]
        = (([⟨some "/d".toList, some "a.txt".toList⟩,
            ⟨some "/d".toList, some "gone.txt".toList⟩,
            ⟨some "/d".toList, some "b.txt".toList⟩] : List FsPath).filter
            (fun p => fsGone p)).length :=
  ⟨by rfl,
    (C3_missing_reported.1 fsGone
      [⟨some "/d".toList, some "a.txt".toList⟩,
       ⟨some "/d".toList, some "gone.txt".toList⟩,
       ⟨some "/d".toList, some "b.txt".toList⟩] []
      [("/d".toList,
        [("a.txt".toList, "a.txt".toList), ("b.txt".toList, "b.txt".toList)])]
      [⟨some "/d".toList, some "gone.txt".toList⟩] (by rfl)).1,
    (C3_missing_reported.1 fsGone
      [⟨some "/d".toList, some "a.txt".toList⟩,
       ⟨some "/d".toList, some "gone.txt".toList⟩,
       ⟨some "/d".toList, some "b.txt".toList⟩] []
      [("/d".toList,
        [("a.txt".toList, "a.txt".toList), ("b.txt".toList, "b.txt".toList)])]
      [⟨some "/d".toList, some "gone.txt".toList⟩] (by rfl)).2⟩

/-- C4, counterexample.  The claim states that a no-op Rename (source
equal to destination) is skipped and never issued as a file-system
operation.  The execution loop of main (src/main.rs, lines 350-354)
iterates over every (src, dst) pair without comparing them: on a
confirmed run whose single Rename is a no-op, the rename operation IS
issued (the operation counter reaches 1 and the report contains the
no-op pair). -/
theorem C4_counterexample :
    mainRun false ["y\n".toList]
        [(⟨some "/d".toList, some "a.txt".toList⟩,
          ⟨some "/d".toList, some "a.txt".toList⟩)]
        countingTry 0
      = (1, [(((⟨some "/d".toList, some "a.txt".toList⟩ : FsPath),
                (⟨some "/d".toList, some "a.txt".toList⟩ : FsPath)), none)],
          Outcome.applied)
    ∧ [(((⟨some "/d".toList, some "a.txt".toList⟩ : FsPath),
         (⟨some "/d".toList, some "a.txt".toList⟩ : FsPath)),
        (none : Option Unit))] ≠ [] :=
  ⟨by rfl, by decide⟩

/-- C4, amended.  The execution phase attempts a file-system rename for
every Rename of the confirmed Proposal in stored order, including no-op
Renames whose source equals their destination: the report of an
execution run lists exactly the stored Renames, none skipped (the
rendering loop of src/main.rs, lines 337-339, likewise prints every
Rename in one common format, with no distinct no-op flag). -/
theorem C4_amended :
    ∀ (σ ε : Type) (tryRename : σ → FsPath × FsPath → σ × Option ε)
      (s : σ) (renames : List (FsPath × FsPath)),
      ((runRenames tryRename s renames).2).map Prod.fst = renames :=
  fun _ _ tryRename s renames => runRenames_map_fst tryRename renames s

/-- C5: executing N Renames in stored order records exactly one result
for any chosen item and still attempts every later item, from the state
the chosen item left behind, whatever the outcome of the chosen item or
of any earlier one; a per-item failure never aborts the batch
(src/main.rs, lines 350-354: the for loop only logs an Err and
continues). -/
theorem C5_continue_after_failure :
    ∀ (σ ε : Type) (tryRename : σ → FsPath × FsPath → σ × Option ε) (s : σ)
      (pre : List (FsPath × FsPath)) (r : FsPath × FsPath)
      (post : List (FsPath × FsPath)),
      runRenames tryRename s (pre ++ r :: post)
        = ((runRenames tryRename
              (tryRename (runRenames tryRename s pre).1 r).1 post).1,
           (runRenames tryRename s pre).2
             ++ ((r, (tryRename (runRenames tryRename s pre).1 r).2)
               :: (runRenames tryRename
                    (tryRename (runRenames tryRename s pre).1 r).1 post).2)) := by
  intro σ ε tryRename s pre r post
  induction pre generalizing s with
  | nil => rfl
  | cons q rest ih => simp [runRenames, ih]

/-- C6: with the dry-run flag set, main returns right after rendering
the proposal (src/main.rs, lines 341-343): the file-system state is
untouched, no rename operation is recorded, and neither the
confirmation prompt nor the application phase is reached. -/
theorem C6_dry_run :
    ∀ (σ ε : Type) (stdinLines : List Str)
      (renames : List (FsPath × FsPath))
      (tryRename : σ → FsPath × FsPath → σ × Option ε) (s : σ),
      mainRun true stdinLines renames tryRename s
        = (s, ([] : List ((FsPath × FsPath) × Option ε)),
            Outcome.dryRunExit) := by
  intro σ ε stdinLines renames tryRename s
  rfl

/-- C7: any confirmation answer whose lowercased, trimmed form is
neither y nor yes leaves the state untouched and issues zero rename
operations; the run ends in the aborted arm (n, no or the empty
default) or the unrecognized-warning arm, both normal terminations
(src/main.rs, lines 348-359). -/
theorem C7_decline_zero_renames :
    ∀ (σ ε : Type) (tryRename : σ → FsPath × FsPath → σ × Option ε) (s : σ)
      (renames : List (FsPath × FsPath)) (answer : Str),
      normalizeAnswer answer ≠ "y".toList →
      normalizeAnswer answer ≠ "yes".toList →
        (confirmDispatch tryRename s renames answer).1 = s
        ∧ (confirmDispatch tryRename s renames answer).2.1 = []
        ∧ ((confirmDispatch tryRename s renames answer).2.2 = Outcome.aborted
          ∨ (confirmDispatch tryRename s renames answer).2.2
              = Outcome.unrecognized) := by
  intro σ ε tryRename s renames answer h1 h2
  unfold confirmDispatch
  rw [if_neg (by tauto)]
  by_cases h3 : normalizeAnswer answer = "n".toList
      ∨ normalizeAnswer answer = "no".toList ∨ normalizeAnswer answer = []
  · rw [if_pos h3]
    exact ⟨rfl, rfl, Or.inl rfl⟩
  · rw [if_neg h3]
    exact ⟨rfl, rfl, Or.inr rfl⟩

/-- Witness for C7 at the unrecognized answer q. -/
theorem C7_witness :
    normalizeAnswer "q\n".toList ≠ "y".toList
    ∧ normalizeAnswer "q\n".toList ≠ "yes".toList
    ∧ ((confirmDispatch countingTry 0 [] "q\n".toList).1 = 0
      ∧ (confirmDispatch countingTry 0 [] "q\n".toList).2.1 = []
      ∧ ((confirmDispatch countingTry 0 [] "q\n".toList).2.2
            = Outcome.aborted
        ∨ (confirmDispatch countingTry 0 [] "q\n".toList).2.2
            = Outcome.unrecognized)) :=
  ⟨by decide, by decide,
    C7_decline_zero_renames Nat Unit countingTry 0 [] "q\n".toList
      (by decide) (by decide)⟩

/-- C8, counterexample.  The claim states the proposal builder is total
for all inputs, including paths with no parent directory or no
file-name component.  Both builders unwrap those Options: the library
builder (src/bare/mod.rs, lines 41-53) panics on an existing path with
no file name, and the legacy builder (src/main.rs, line 298) panics on
a path with no parent even when the path does not exist, before its
existence is checked. -/
theorem C8_counterexample :
    propose_renames fsAll [⟨none, none⟩] [] = none
    ∧ main_propose_renames fsNone [⟨none, some "a".toList⟩] [] = none :=
  ⟨by rfl, by rfl⟩

/-- C8, amended.  The library builder returns normally (no panic, no
error) whenever every EXISTING candidate has a parent and a file-name
component, with missing candidates unrestricted; the legacy builder
returns normally whenever every candidate, existing or not, has both
components.  Outside these shapes the builders panic on the unwrap of
the absent component. -/
theorem C8_amended :
    (∀ (fs : FsPath → Bool) (files : List FsPath) (patterns : List Pattern),
      (∀ p ∈ files, fs p = true → p.parent.isSome ∧ p.fileName.isSome) →
        (propose_renames fs files patterns).isSome)
    ∧ (∀ (fs : FsPath → Bool) (paths : List FsPath) (patterns : List Pattern),
      (∀ p ∈ paths, p.parent.isSome ∧ p.fileName.isSome) →
        (main_propose_renames fs paths patterns).isSome) :=
  ⟨fun fs files patterns h => proposeLoop_isSome fs patterns files [] [] h,
   fun fs paths patterns h => mainProposeLoop_isSome fs patterns paths [] [] h⟩

/-- Witness for C8_amended on a well-formed one-candidate list. -/
theorem C8_amended_witness :
    (propose_renames fsAll [⟨some "/d".toList, some "a.txt".toList⟩]
        []).isSome
    ∧ (main_propose_renames fsAll [⟨some "/d".toList, some "a.txt".toList⟩]
        []).isSome :=
  ⟨C8_amended.1 fsAll [⟨some "/d".toList, some "a.txt".toList⟩] []
      (by decide),
   C8_amended.2 fsAll [⟨some "/d".toList, some "a.txt".toList⟩] []
      (by decide)⟩

/-- C9: in every run of the library builder that returns, the Rename
sequence stored for any parent directory equals exactly the renames of
the present candidates of that directory, one per candidate, in the
order the candidates were supplied: grouping by directory never
reorders, merges or deduplicates renames within a directory. -/
theorem C9_dir_order :
    ∀ (fs : FsPath → Bool) (patterns : List Pattern) (files : List FsPath)
      (proposal : Proposal) (nf : List FsPath) (d : Str),
      propose_renames fs files patterns = some (proposal, nf) →
        alistGetD proposal d [] = specDirRenames fs patterns d files := by
  intro fs patterns files proposal nf d h
  have hd := proposeLoop_dir fs patterns d files [] [] proposal nf h
  simpa [alistGetD, alistGet] using hd

/-- Witness for C9 on two directories with interleaved candidates,
checked on the first directory: the two renames of directory /a keep
their supply order with the /b candidate in between. -/
theorem C9_witness :
    alistGetD
        [("/a".toList,
          [("x1".toList, "x1".toList), ("x2".toList, "x2".toList)]),
         ("/b".toList, [("y1".toList, "y1".toList)])]
        "/a".toList []
      = specDirRenames fsAll [] "/a".toList
          [⟨some "/a".toList, some "x1".toList⟩,
           ⟨some "/b".toList, some "y1".toList⟩,
           ⟨some "/a".toList, some "x2".toList⟩] :=
  C9_dir_order fsAll []
    [⟨some "/a".toList, some "x1".toList⟩,
     ⟨some "/b".toList, some "y1".toList⟩,
     ⟨some "/a".toList, some "x2".toList⟩]
    [("/a".toList, [("x1".toList, "x1".toList), ("x2".toList, "x2".toList)]),
     ("/b".toList, [("y1".toList, "y1".toList)])]
    [] "/a".toList (by rfl)

/-- C10, counterexample.  The claim states that every answer returned
by ask_user under the confirmation validator lowercases and trims to
one of y, yes, n, no or the empty string, making the fallthrough
warning arm unreachable.  The regex crate matches the marker for case
insensitivity up to Unicode simple case folding, under which U+017F
(long s) folds to s: the validator accepts the stdin line spelling yes
with a long s, str::to_lowercase leaves the long s unchanged, the
normalized answer is none of the five expected forms, and the dispatch
reaches the unrecognized-warning arm. -/
theorem C10_counterexample :
    ask_user confirmValidator ["yeſ\n".toList] = some "yeſ\n".toList
    ∧ normalizeAnswer "yeſ\n".toList = "yeſ".toList
    ∧ normalizeAnswer "yeſ\n".toList
        ∉ ["y".toList, "yes".toList, "n".toList, "no".toList, ([] : Str)]
    ∧ (confirmDispatch countingTry 0 [] "yeſ\n".toList).2.2
        = Outcome.unrecognized :=
  ⟨by rfl, by rfl, by decide, by rfl⟩

/-- C10, amended.  ask_user returns only strings its validator accepts;
with the confirmation validator of main, every returned answer
lowercased and trimmed is one of y, yes, n, no, the empty string, or
the long-s spelling of yes (U+017F folds to s under the case
insensitivity of the regex but survives to_lowercase), and the
fallthrough unrecognized-answer arm of the confirmation match is
reached exactly by that long-s form, never by the five others. -/
theorem C10_amended :
    (∀ (validator : Str → Bool) (stdinLines : List Str) (a : Str),
      ask_user validator stdinLines = some a → validator a = true)
    ∧ (∀ (σ ε : Type) (stdinLines : List Str) (a : Str),
      ask_user confirmValidator stdinLines = some a →
        normalizeAnswer a
            ∈ ["y".toList, "yes".toList, "n".toList, "no".toList,
               ([] : Str), "yeſ".toList]
          ∧ ∀ (tryRename : σ → FsPath × FsPath → σ × Option ε) (s : σ)
              (renames : List (FsPath × FsPath)),
              ((confirmDispatch tryRename s renames a).2.2
                  = Outcome.unrecognized
                ↔ normalizeAnswer a = "yeſ".toList)) := by
  constructor
  · intro validator stdinLines a h
    exact askUserLoop_valid validator stdinLines [] a h
  · intro σ ε stdinLines a h
    have hv : confirmValidator a = true :=
      askUserLoop_valid confirmValidator stdinLines [] a h
    have hnorm := confirmValidator_normalize a hv
    constructor
    · rcases hnorm with h' | h' | h' | h' | h' | h' <;> rw [h'] <;> decide
    · intro tryRename s renames
      rw [confirmDispatch_outcome]
      rcases hnorm with h' | h' | h' | h' | h' | h' <;> rw [h'] <;> decide

/-- Witness for C10_amended: stdin offers the single line YES, which
the validator accepts case-insensitively and which dispatches away from
the unrecognized arm. -/
theorem C10_amended_witness :
    confirmValidator "YES\n".toList = true
    ∧ normalizeAnswer "YES\n".toList
        ∈ ["y".toList, "yes".toList, "n".toList, "no".toList,
           ([] : Str), "yeſ".toList]
    ∧ ((confirmDispatch countingTry 0 [] "YES\n".toList).2.2
          = Outcome.unrecognized
        ↔ normalizeAnswer "YES\n".toList = "yeſ".toList) :=
  ⟨C10_amended.1 confirmValidator ["YES\n".toList] "YES\n".toList (by rfl),
   (C10_amended.2 Nat Unit ["YES\n".toList] "YES\n".toList (by rfl)).1,
   (C10_amended.2 Nat Unit ["YES\n".toList] "YES\n".toList (by rfl)).2
     countingTry 0 []⟩

end Claims

end Bare
